import Mathlib

/-!
Verification of the waifu2x-go inference engine.

This file gives a shallow embedding of the mat64-based implementation in
waifu2x/waifu2x.go (the version whose own pad, calcConv, correlate,
broadcastMat, broadcastVec, clip and Exec routines are written by hand) and of
the SaveImage routine, and proves properties about them.  Real numbers are
modelled as exact rationals; matrices are row-major flat vectors paired with
their dimensions, exactly as gonum mat64 stores a Dense matrix.  Go code that
can panic or call os.Exit is modelled with Option, a none value standing for
an aborted run.
-/

namespace Waifu2x

/-- Dense matrix in row-major order, as in gonum mat64: the value at
row i and column j is vec at index i * cols + j. -/
structure Dense where
  rows : Nat
  cols : Nat
  vec  : List ℚ
deriving DecidableEq, Repr

/-- Element access im.At(i, j).  Out-of-range reads default to 0; the Go code
only ever reads in range (an out-of-range At panics there). -/
def Dense.atD (m : Dense) (i j : Nat) : ℚ :=
  m.vec.getD (i * m.cols + j) 0

/-- Kernel element access, f at row a and column b. -/
def kAt (f : List (List ℚ)) (a b : Nat) : ℚ :=
  (f.getD a []).getD b 0

/-- Row-major vector built by the nested loop idiom used all over the source:
an outer loop over rows and an inner loop over columns, appending one value
per cell to a flat vector. -/
def mkVec (r c : Nat) (g : Nat → Nat → ℚ) : List ℚ :=
  (List.range r).flatMap (fun y => (List.range c).map (g y))

/-- Helper function mul of the source. -/
def mul (a b : ℚ) : ℚ := a * b

/-- Helper function add of the source. -/
def add (a b : ℚ) : ℚ := a + b

/-- Helper function maximum of the source: a if a is at least b, else b. -/
def maximum (a b : ℚ) : ℚ := if a ≥ b then a else b

/-- Helper function minimum of the source: a if a is at most b, else b. -/
def minimum (a b : ℚ) : ℚ := if a ≤ b then a else b

/-- Translation of the pad method: builds the padded flat vector with three
loop blocks (top padding rows, a middle block, bottom rows), copying the
boundary checks and index arithmetic of the source verbatim, including the
division of every written value by 255. -/
def pad (im : Dense) (padding : Nat) : Dense :=
  let r := im.rows
  let c := im.cols
  let newRows := r + padding * 2
  let newCols := c + padding * 2
  let topLeft := im.atD 0 0 / 255
  let topRight := im.atD 0 (c - 1) / 255
  let bottomLeft := im.atD (r - 1) 0 / 255
  let bottomRight := im.atD (r - 1) (c - 1) / 255
  let top := (List.range padding).flatMap (fun _ =>
    (List.range newCols).map (fun j =>
      if j < padding then topLeft
      else if c ≤ j then topRight
      else im.atD padding j / 255))
  let middle := (List.range (r - padding)).flatMap (fun row =>
    (List.range newCols).map (fun j =>
      if j < padding then im.atD row 0 / 255
      else if c ≤ j then im.atD row (c - 1) / 255
      else im.atD (padding + row) j / 255))
  let bottom := (List.range (newRows - r)).flatMap (fun _ =>
    (List.range newCols).map (fun j =>
      if j < padding then bottomLeft
      else if c ≤ j then bottomRight
      else im.atD (r - 1) j / 255))
  ⟨newRows, newCols, top ++ middle ++ bottom⟩

/-- Translation of calcConv: the hand-unrolled 3 by 3 stencil of the source,
term for term.  Note that the source pairs kernel element f at (a, b) with
the input element offset by (b - 1, a - 1) from the centre (x, y). -/
def calcConv (x y : Nat) (im : Dense) (f : List (List ℚ)) : ℚ :=
  im.atD (x - 1) (y - 1) * kAt f 0 0 +
  im.atD x (y - 1) * kAt f 0 1 +
  im.atD (x + 1) (y - 1) * kAt f 0 2 +
  im.atD (x - 1) y * kAt f 1 0 +
  im.atD x y * kAt f 1 1 +
  im.atD (x + 1) y * kAt f 1 2 +
  im.atD (x - 1) (y + 1) * kAt f 2 0 +
  im.atD x (y + 1) * kAt f 2 1 +
  im.atD (x + 1) (y + 1) * kAt f 2 2

/-- Translation of correlate: walks every cell in row-major order, skips the
one-cell boundary, and applies calcConv at the remaining cells; the result is
declared with dimensions smaller by two in each direction. -/
def correlate (im : Dense) (f : List (List ℚ)) : Dense :=
  let r := im.rows
  let c := im.cols
  ⟨r - 2, c - 2,
    (List.range r).flatMap (fun i =>
      (List.range c).filterMap (fun j =>
        if i = 0 ∨ j = 0 ∨ i = r - 1 ∨ j = c - 1 then none
        else some (calcConv i j im f)))⟩

/-- Modelled from the spec: standard valid 2D cross-correlation with a 3 by 3
kernel, in which each output cell is the sum over the neighbourhood of the
input element multiplied by the kernel element at the same relative position.
This is the operation claim C2 describes; it is compared against the
correlate function translated from the source. -/
def correlateSpec (im : Dense) (f : List (List ℚ)) : Dense :=
  ⟨im.rows - 2, im.cols - 2,
    mkVec (im.rows - 2) (im.cols - 2) (fun i j =>
      kAt f 0 0 * im.atD i j + kAt f 0 1 * im.atD i (j + 1) + kAt f 0 2 * im.atD i (j + 2) +
      kAt f 1 0 * im.atD (i + 1) j + kAt f 1 1 * im.atD (i + 1) (j + 1) +
      kAt f 1 2 * im.atD (i + 1) (j + 2) +
      kAt f 2 0 * im.atD (i + 2) j + kAt f 2 1 * im.atD (i + 2) (j + 1) +
      kAt f 2 2 * im.atD (i + 2) (j + 2))⟩

/-- Translation of broadcastMat: applies f with the scalar n to every cell. -/
def broadcastMat (m : Dense) (n : ℚ) (f : ℚ → ℚ → ℚ) : Dense :=
  ⟨m.rows, m.cols, mkVec m.rows m.cols (fun y x => f (m.atD y x) n)⟩

/-- Translation of broadcastVec: applies f with the scalar n to every entry
of a flat vector. -/
def broadcastVec (vec : List ℚ) (n : ℚ) (f : ℚ → ℚ → ℚ) : List ℚ :=
  vec.map (fun v => f v n)

/-- Scalar clamp used by the clip method: below start becomes start, above
stop becomes stop, otherwise unchanged (the source checks in this order). -/
def clipScalar (start stop e : ℚ) : ℚ :=
  if e < start then start else if e > stop then stop else e

/-- Translation of clip: clamps every cell and returns the flat vector. -/
def clip (im : Dense) (start stop : ℚ) : List ℚ :=
  mkVec im.rows im.cols (fun y x => clipScalar start stop (im.atD y x))

/-- Elementwise matrix sum, the mat64 Add receiver call used in Exec; every
use in the source adds matrices of identical dimensions. -/
def matAdd (a b : Dense) : Dense :=
  ⟨a.rows, a.cols, List.zipWith (· + ·) a.vec b.vec⟩

/-- All-zero matrix of a given shape, used only in proofs about the
reduction. -/
def zeroD (r c n : Nat) : Dense :=
  ⟨r, c, List.replicate n 0⟩

/-- Translation of the LeakyReLU block of Exec: the elementwise maximum with
zero, plus the elementwise minimum with zero scaled by 0.1. -/
def leakyRelu (v : Dense) : Dense :=
  matAdd (broadcastMat v 0 maximum) (broadcastMat (broadcastMat v 0 minimum) (0.1 : ℚ) mul)

/-- Modelled from the spec: the scalar leaky-rectifier activation
max(x, 0) + 0.1 * min(x, 0) that the spec states is applied elementwise. -/
def activatedSpec (x : ℚ) : ℚ :=
  max x 0 + (0.1 : ℚ) * min x 0

/-- Model (layer) record of the source, with the same field names.  The
weight is indexed output plane, then input plane, then kernel row and
column; declared plane counts are carried but, as in the source, never bound
the loops. -/
structure Model where
  Weight : List (List (List (List ℚ)))
  NOutputPlane : Nat
  KW : Nat
  KH : Nat
  Bias : List ℚ
  NInputPlane : Nat
deriving DecidableEq, Repr

/-- Per-input-plane convolution results for one output plane, in launch
order: index j below min(len planes, len wgt) yields the correlation of
plane j with kernel group j, exactly the work the source hands to the j-th
goroutine. -/
def convResults (planes : List Dense) (wgt : List (List (List ℚ))) : List Dense :=
  (List.range (min planes.length wgt.length)).map
    (fun j => correlate (planes.getD j ⟨0, 0, []⟩) (wgt.getD j []))

/-- Reduction of the received convolution results in arrival order: the first
arrival seeds the accumulator and the rest are added elementwise.  An empty
arrival list leaves the accumulator nil and the source then dereferences it,
so the model returns none. -/
def reducePartials : List Dense → Option Dense
  | [] => none
  | h :: t => some (t.foldl matAdd h)

/-- One output plane computed from results in a given arrival order, then
shifted by the bias via broadcast add. -/
def execOutputPlaneArr (arrivals : List Dense) (b : ℚ) : Option Dense :=
  (reducePartials arrivals).map (fun s => broadcastMat s b add)

/-- One output plane of a layer as Exec computes it, with the canonical
launch order standing for an arrival order. -/
def execOutputPlane (planes : List Dense) (b : ℚ) (wgt : List (List (List ℚ))) : Option Dense :=
  execOutputPlaneArr (convResults planes wgt) b

/-- Sequential collection of fallible computations: the loop aborts the whole
run when any iteration panics, as in the source. -/
def collectOpt {α β : Type} (f : α → Option β) : List α → Option (List β)
  | [] => some []
  | a :: as =>
    match f a, collectOpt f as with
    | some b, some bs => some (b :: bs)
    | _, _ => none

/-- Translation of one iteration of the layer loop of Exec: min(len Bias,
len Weight) output planes are produced, each from min(len planes, len wgt)
input planes, and the LeakyReLU block then replaces the plane set with the
activated output planes. -/
def execLayer (planes : List Dense) (m : Model) : Option (List Dense) :=
  match collectOpt
      (fun i => execOutputPlane planes (m.Bias.getD i 0) (m.Weight.getD i []))
      (List.range (min m.Bias.length m.Weight.length)) with
  | none => none
  | some oPlanes => some (oPlanes.map leakyRelu)

/-- Translation of the layer loop of Exec: layers run strictly in order and
any aborted layer aborts the run. -/
def execNetwork : List Model → List Dense → Option (List Dense)
  | [], planes => some planes
  | m :: ms, planes =>
    match execLayer planes m with
    | none => none
    | some next => execNetwork ms next

/-- Translation of the tail of Exec: the assert block calls os.Exit(1) unless
exactly one plane remains (modelled as none), then the sole plane is clipped
to the unit interval and rescaled by 255. -/
def finalize (planes : List Dense) : Option (List ℚ) :=
  if planes.length ≠ 1 then none
  else some (broadcastVec (clip (planes.getD 0 ⟨0, 0, []⟩) 0 1) 255 mul)

/-- Whole numeric pipeline of Exec: pad by the layer count (the pad method
also divides by 255), run every layer, assert, clip and rescale. -/
def ExecCore (models : List Model) (m : Dense) : Option (List ℚ) :=
  match execNetwork models [pad m models.length] with
  | none => none
  | some planes => finalize planes

/-- Color sample with luminance and chroma components, as color.YCbCr. -/
structure YCbCr where
  Y : Nat
  Cb : Nat
  Cr : Nat
deriving DecidableEq, Repr

/-- Go conversion uint8(v) of a nonnegative float in range: truncation toward
zero, which for nonnegative values is the floor. -/
def goUint8 (v : ℚ) : Nat :=
  (⌊v⌋).toNat

/-- Translation of the write-back loop of Exec: entry i of the color raster
keeps its chroma and has its luminance replaced by the i-th reconstructed
value, for every index covered by the reconstructed vector. -/
def replaceLuma (c : List YCbCr) (vec : List ℚ) : List YCbCr :=
  (List.range c.length).map (fun i =>
    let s := c.getD i ⟨0, 0, 0⟩
    if i < vec.length then { s with Y := goUint8 (vec.getD i 0) } else s)

/-- Image payload a successful encoder writes into the destination file. -/
inductive ImgData
  | png
  | jpeg
deriving DecidableEq, Repr

/-- Observable outcome of SaveImage on the file system: whether the target
file was created or truncated, what payload was encoded into it, and whether
an error was returned (false meaning a nil error). -/
structure SaveResult where
  fileCreated : Bool
  written : Option ImgData
  err : Bool
deriving DecidableEq, Repr

/-- Translation of the scan filepath.Ext performs: walk the name backwards
until a path separator; the suffix from the last dot is the extension and a
name with no dot has extension empty.  The accumulator carries the
characters already walked past. -/
def goExtRev : List Char → List Char → String
  | [], _ => ""
  | ch :: rest, acc =>
    if ch = '/' then ""
    else if ch = '.' then String.mk (ch :: acc)
    else goExtRev rest (ch :: acc)

/-- Extension of a file name, as filepath.Ext computes it on a unix path. -/
def goExt (name : String) : String :=
  goExtRev name.data.reverse []

/-- Translation of SaveImage: os.Create first (createOk models its success;
on failure the error is returned at once), then a switch on the extension
with cases for png and jpeg and no default case, so any other extension
writes nothing and returns the nil error left over from os.Create. -/
def SaveImage (createOk : Bool) (name : String) : SaveResult :=
  if createOk then
    if goExt name = ".png" then ⟨true, some ImgData.png, false⟩
    else if goExt name = ".jpeg" ∨ goExt name = ".jpg" then ⟨true, some ImgData.jpeg, false⟩
    else ⟨true, none, false⟩
  else ⟨false, none, true⟩

/-- Concrete 3 by 3 input with all-distinct values 1 to 9, used as the
failing input for the padding claim. -/
def distinct3 : Dense :=
  ⟨3, 3, [1, 2, 3, 4, 5, 6, 7, 8, 9]⟩

/-- Concrete all-zero 3 by 3 input used by witnesses. -/
def zeros3 : Dense :=
  ⟨3, 3, [0, 0, 0, 0, 0, 0, 0, 0, 0]⟩

/-- Concrete all-zero 1 by 1 input used by witnesses. -/
def zeros1 : Dense :=
  ⟨1, 1, [0]⟩

/-- Concrete identity 3 by 3 kernel: one at the centre, zero elsewhere. -/
def idKernel : List (List ℚ) :=
  [[0, 0, 0], [0, 1, 0], [0, 0, 0]]

/-- Concrete one-layer network with one input and one output plane. -/
def model1 : Model :=
  ⟨[[idKernel]], 1, 3, 3, [0], 1⟩

/-- Concrete layer whose bias has two entries but whose weight has three
output-plane groups, for the truncation-policy claim. -/
def model23 : Model :=
  ⟨[[idKernel], [idKernel], [idKernel]], 3, 3, 3, [0, 0], 1⟩

/-- Concrete asymmetric input for the correlation counterexample. -/
def imAsym : Dense :=
  ⟨3, 3, [0, 5, 0, 7, 0, 0, 0, 0, 0]⟩

/-- Concrete asymmetric kernel for the correlation counterexample: one at
kernel row 0, column 1, zero elsewhere. -/
def kAsym : List (List ℚ) :=
  [[0, 1, 0], [0, 0, 0], [0, 0, 0]]

/-- Concrete pair of 3 by 3 planes for the determinism witness. -/
def planesPair : List Dense :=
  [⟨3, 3, [1, 2, 3, 4, 5, 6, 7, 8, 9]⟩, ⟨3, 3, [9, 8, 7, 6, 5, 4, 3, 2, 1]⟩]

/-- Concrete pair of kernel groups for the determinism witness. -/
def wgtPair : List (List (List ℚ)) :=
  [idKernel, [[1, 0, 0], [0, 0, 0], [0, 0, 0]]]

/-! Helper lemmas about the row-major vector builder. -/

theorem mkVec_succ (k c : Nat) (g : Nat → Nat → ℚ) :
    mkVec (k + 1) c g = (List.range c).map (g 0) ++ mkVec k c (fun a b => g (a + 1) b) := by
  unfold mkVec
  rw [List.range_succ_eq_map, List.flatMap_cons, List.flatMap_map]

theorem mkVec_length (r c : Nat) (g : Nat → Nat → ℚ) : (mkVec r c g).length = r * c := by
  induction r generalizing g with
  | zero => simp [mkVec]
  | succ k ih =>
    rw [mkVec_succ, List.length_append, ih]
    simp [Nat.succ_mul]
    omega

theorem index_lt {y x r c : Nat} (hy : y < r) (hx : x < c) : y * c + x < r * c := by
  have h1 : (y + 1) * c = y * c + c := Nat.succ_mul y c
  have h2 : (y + 1) * c ≤ r * c := Nat.mul_le_mul_right c hy
  omega

theorem getD_map_range' {α : Type} {n : Nat} {g : Nat → α} {d : α} {i : Nat} (h : i < n) :
    ((List.range n).map g).getD i d = g i := by
  rw [List.getD_eq_getElem _ _ (by simpa using h)]
  simp

theorem mkVec_getD (r c : Nat) (g : Nat → Nat → ℚ) (y x : Nat) (hy : y < r) (hx : x < c) :
    (mkVec r c g).getD (y * c + x) 0 = g y x := by
  induction r generalizing g y with
  | zero => omega
  | succ k ih =>
    rw [mkVec_succ]
    rcases y with _ | y'
    · rw [List.getD_append _ _ _ _ (by simpa using hx)]
      simpa using getD_map_range' hx
    · have hge : (List.map (g 0) (List.range c)).length ≤ (y' + 1) * c + x := by
        simp [Nat.succ_mul]
        omega
      rw [List.getD_append_right _ _ _ _ hge]
      have hidx : (y' + 1) * c + x - (List.map (g 0) (List.range c)).length = y' * c + x := by
        simp [Nat.succ_mul]
        omega
      rw [hidx]
      exact ih (fun a b => g (a + 1) b) y' (by omega)

theorem mem_mkVec {r c : Nat} {g : Nat → Nat → ℚ} {q : ℚ} (h : q ∈ mkVec r c g) :
    ∃ y x, y < r ∧ x < c ∧ q = g y x := by
  unfold mkVec at h
  rw [List.mem_flatMap] at h
  obtain ⟨y, hy, hq⟩ := h
  rw [List.mem_map] at hq
  obtain ⟨x, hx, hq⟩ := hq
  exact ⟨y, x, List.mem_range.mp hy, List.mem_range.mp hx, hq.symm⟩

/-! Helper lemmas about elementwise addition of flat vectors. -/

theorem zipWith_add_right_comm (a b c : List ℚ) :
    List.zipWith (· + ·) (List.zipWith (· + ·) a b) c =
      List.zipWith (· + ·) (List.zipWith (· + ·) a c) b := by
  induction a generalizing b c with
  | nil => simp
  | cons x xs ih =>
    rcases b with _ | ⟨y, ys⟩
    · simp
    · rcases c with _ | ⟨z, zs⟩
      · simp
      · simp only [List.zipWith]
        rw [ih ys zs]
        ring_nf

theorem zipWith_replicate_zero {v : List ℚ} {n : Nat} (h : v.length ≤ n) :
    List.zipWith (· + ·) (List.replicate n (0 : ℚ)) v = v := by
  induction v generalizing n with
  | nil => simp
  | cons x xs ih =>
    rcases n with _ | m
    · simp at h
    · simp only [List.replicate, List.zipWith, zero_add]
      rw [ih (by simpa using h)]

theorem getD_zipWith_add {a b : List ℚ} {k : Nat} (ha : k < a.length) (hb : k < b.length) :
    (List.zipWith (· + ·) a b).getD k 0 = a.getD k 0 + b.getD k 0 := by
  rw [List.getD_eq_getElem _ _ (by simp [List.length_zipWith]; omega),
    List.getD_eq_getElem _ _ ha, List.getD_eq_getElem _ _ hb]
  exact List.getElem_zipWith

/-! Helper lemmas about matAdd and the unordered reduction. -/

theorem matAdd_rows (a b : Dense) : (matAdd a b).rows = a.rows := rfl

theorem matAdd_cols (a b : Dense) : (matAdd a b).cols = a.cols := rfl

theorem matAdd_right_comm (z x y : Dense) :
    matAdd (matAdd z x) y = matAdd (matAdd z y) x := by
  simp only [matAdd, Dense.mk.injEq]
  exact ⟨trivial, trivial, zipWith_add_right_comm z.vec x.vec y.vec⟩

theorem foldl_matAdd_perm {l₁ l₂ : List Dense} (h : l₁.Perm l₂) :
    ∀ z, l₁.foldl matAdd z = l₂.foldl matAdd z := by
  induction h with
  | nil => intro z; rfl
  | cons x _ ih => intro z; simp only [List.foldl_cons]; exact ih _
  | swap x y l => intro z; simp only [List.foldl_cons]; rw [matAdd_right_comm]
  | trans _ _ ih₁ ih₂ => intro z; exact (ih₁ z).trans (ih₂ z)

theorem foldl_matAdd_dims (t : List Dense) (z : Dense) :
    (t.foldl matAdd z).rows = z.rows ∧ (t.foldl matAdd z).cols = z.cols := by
  induction t generalizing z with
  | nil => exact ⟨rfl, rfl⟩
  | cons x xs ih => simpa using ih (matAdd z x)

theorem mem_le_foldr_max {l : List Nat} {a : Nat} (h : a ∈ l) : a ≤ l.foldr max 0 := by
  induction l with
  | nil => cases h
  | cons x xs ih =>
    rcases List.mem_cons.mp h with h' | h'
    · subst h'; exact le_max_left _ _
    · exact le_trans (ih h') (le_max_right _ _)

theorem matAdd_zero_left {h : Dense} {r c n : Nat} (hr : h.rows = r) (hc : h.cols = c)
    (hn : h.vec.length ≤ n) : matAdd (zeroD r c n) h = h := by
  rcases h with ⟨hr', hc', hv⟩
  simp only [matAdd, zeroD]
  simp only at hr hc hn
  rw [zipWith_replicate_zero hn, hr, hc]

theorem reducePartials_eq_foldl {l : List Dense} {r c n : Nat}
    (hs : ∀ q ∈ l, q.rows = r ∧ q.cols = c ∧ q.vec.length ≤ n) (hne : l ≠ []) :
    reducePartials l = some (l.foldl matAdd (zeroD r c n)) := by
  rcases l with _ | ⟨h, t⟩
  · exact absurd rfl hne
  · obtain ⟨h1, h2, h3⟩ := hs h (List.mem_cons_self h t)
    simp only [reducePartials, List.foldl_cons, matAdd_zero_left h1 h2 h3]

theorem reducePartials_perm {l₁ l₂ : List Dense} {r c : Nat}
    (hs : ∀ q ∈ l₂, q.rows = r ∧ q.cols = c) (hp : l₁.Perm l₂) :
    reducePartials l₁ = reducePartials l₂ := by
  rcases l₂ with _ | ⟨h, t⟩
  · rw [List.perm_nil.mp hp]
  · have hne₂ : (h :: t) ≠ ([] : List Dense) := by simp
    have hne₁ : l₁ ≠ [] := by
      intro hn
      rw [hn] at hp
      exact hne₂ (List.perm_nil.mp hp.symm)
    have hn : ∀ q : Dense, q ∈ h :: t →
        q.vec.length ≤ ((h :: t).map (fun q : Dense => q.vec.length)).foldr max 0 :=
      fun q hq =>
        mem_le_foldr_max (l := (h :: t).map (fun q : Dense => q.vec.length))
          (List.mem_map.mpr ⟨q, hq, rfl⟩)
    have hs₂ : ∀ q ∈ h :: t, q.rows = r ∧ q.cols = c ∧
        q.vec.length ≤ ((h :: t).map (fun q : Dense => q.vec.length)).foldr max 0 :=
      fun q hq => ⟨(hs q hq).1, (hs q hq).2, hn q hq⟩
    have hs₁ : ∀ q ∈ l₁, q.rows = r ∧ q.cols = c ∧
        q.vec.length ≤ ((h :: t).map (fun q : Dense => q.vec.length)).foldr max 0 :=
      fun q hq => hs₂ q (hp.mem_iff.mp hq)
    rw [reducePartials_eq_foldl hs₁ hne₁, reducePartials_eq_foldl hs₂ hne₂,
      foldl_matAdd_perm hp]

/-! Helper lemmas describing the cells correlate produces. -/

theorem filterMap_range_none {p : Nat → Prop} [DecidablePred p] {n : Nat} {g : Nat → ℚ}
    (h : ∀ b < n, p b) :
    (List.range n).filterMap (fun b => if p b then none else some (g b)) = [] := by
  induction n with
  | zero => rfl
  | succ k ih =>
    rw [List.range_succ, List.filterMap_append,
      ih (fun b hb => h b (Nat.lt_succ_of_lt hb))]
    simp [h k (Nat.lt_succ_self k)]

theorem filterMap_range_all {p : Nat → Prop} [DecidablePred p] {n : Nat} {g : Nat → ℚ}
    (h : ∀ b < n, ¬ p b) :
    (List.range n).filterMap (fun b => if p b then none else some (g b)) =
      (List.range n).map g := by
  induction n with
  | zero => rfl
  | succ k ih =>
    rw [List.range_succ, List.filterMap_append, List.map_append,
      ih (fun b hb => h b (Nat.lt_succ_of_lt hb))]
    simp [h k (Nat.lt_succ_self k)]

theorem range_decomp (n : Nat) :
    List.range (n + 2) = 0 :: ((List.range n).map Nat.succ ++ [n + 1]) := by
  rw [List.range_succ, List.range_succ_eq_map]
  simp

theorem correlate_row_boundary (im : Dense) (f : List (List ℚ)) (r c i : Nat)
    (hi : i = 0 ∨ i = r - 1) :
    (List.range c).filterMap (fun j =>
      if i = 0 ∨ j = 0 ∨ i = r - 1 ∨ j = c - 1 then none
      else some (calcConv i j im f)) = [] := by
  apply filterMap_range_none
  intro b _
  rcases hi with h | h
  · exact Or.inl h
  · exact Or.inr (Or.inr (Or.inl h))

theorem correlate_row_interior (im : Dense) (f : List (List ℚ)) (r' c' a : Nat) (ha : a < r') :
    (List.range (c' + 2)).filterMap (fun j =>
      if a + 1 = 0 ∨ j = 0 ∨ a + 1 = r' + 2 - 1 ∨ j = c' + 2 - 1 then none
      else some (calcConv (a + 1) j im f)) =
    (List.range c').map (fun b => calcConv (a + 1) (b + 1) im f) := by
  rw [range_decomp c', List.filterMap_cons]
  have h0 : (a + 1 = 0 ∨ (0 : Nat) = 0 ∨ a + 1 = r' + 2 - 1 ∨ (0 : Nat) = c' + 2 - 1) :=
    Or.inr (Or.inl rfl)
  rw [if_pos h0]
  rw [List.filterMap_append, List.filterMap_map]
  have hmid : (List.range c').filterMap
      ((fun j => if a + 1 = 0 ∨ j = 0 ∨ a + 1 = r' + 2 - 1 ∨ j = c' + 2 - 1 then none
        else some (calcConv (a + 1) j im f)) ∘ Nat.succ) =
      (List.range c').map (fun b => calcConv (a + 1) (b + 1) im f) := by
    apply filterMap_range_all (p := fun b =>
      a + 1 = 0 ∨ b + 1 = 0 ∨ a + 1 = r' + 2 - 1 ∨ b + 1 = c' + 2 - 1)
    intro b hb
    simp only [not_or]
    omega
  rw [hmid]
  have hlast : (a + 1 = 0 ∨ c' + 1 = 0 ∨ a + 1 = r' + 2 - 1 ∨ c' + 1 = c' + 2 - 1) :=
    Or.inr (Or.inr (Or.inr rfl))
  simp [if_pos hlast]

theorem correlate_vec (im : Dense) (f : List (List ℚ)) (hr : 2 ≤ im.rows) (hc : 2 ≤ im.cols) :
    (correlate im f).vec =
      mkVec (im.rows - 2) (im.cols - 2) (fun a b => calcConv (a + 1) (b + 1) im f) := by
  obtain ⟨r', hr'⟩ : ∃ r', im.rows = r' + 2 := ⟨im.rows - 2, by omega⟩
  obtain ⟨c', hc'⟩ : ∃ c', im.cols = c' + 2 := ⟨im.cols - 2, by omega⟩
  show (List.range im.rows).flatMap (fun i =>
      (List.range im.cols).filterMap (fun j =>
        if i = 0 ∨ j = 0 ∨ i = im.rows - 1 ∨ j = im.cols - 1 then none
        else some (calcConv i j im f))) = _
  rw [hr', hc']
  rw [range_decomp r', List.flatMap_cons, List.flatMap_append, List.flatMap_map]
  rw [correlate_row_boundary im f (r' + 2) (c' + 2) 0 (Or.inl rfl)]
  have hlast : (List.range (c' + 2)).filterMap (fun j =>
      if r' + 1 = 0 ∨ j = 0 ∨ r' + 1 = r' + 2 - 1 ∨ j = c' + 2 - 1 then none
      else some (calcConv (r' + 1) j im f)) = [] :=
    correlate_row_boundary im f (r' + 2) (c' + 2) (r' + 1) (Or.inr rfl)
  simp only [List.flatMap_cons, List.flatMap_nil, List.append_nil, hlast]
  have hmid : ∀ a ∈ List.range r',
      (List.range (c' + 2)).filterMap (fun j =>
        if a.succ = 0 ∨ j = 0 ∨ a.succ = r' + 2 - 1 ∨ j = c' + 2 - 1 then none
        else some (calcConv a.succ j im f)) =
      (List.range c').map (fun b => calcConv (a + 1) (b + 1) im f) := by
    intro a ha
    exact correlate_row_interior im f r' c' a (List.mem_range.mp ha)
  rw [List.flatMap_congr hmid]
  simp [mkVec]

theorem correlate_rows (im : Dense) (f : List (List ℚ)) :
    (correlate im f).rows = im.rows - 2 := rfl

theorem correlate_cols (im : Dense) (f : List (List ℚ)) :
    (correlate im f).cols = im.cols - 2 := rfl

theorem correlate_length (im : Dense) (f : List (List ℚ)) (hr : 2 ≤ im.rows)
    (hc : 2 ≤ im.cols) :
    (correlate im f).vec.length = (im.rows - 2) * (im.cols - 2) := by
  rw [correlate_vec im f hr hc]
  exact mkVec_length _ _ _

theorem correlate_atD (im : Dense) (f : List (List ℚ)) {i j : Nat} (hr : 2 ≤ im.rows)
    (hc : 2 ≤ im.cols) (hi : i < im.rows - 2) (hj : j < im.cols - 2) :
    (correlate im f).atD i j = calcConv (i + 1) (j + 1) im f := by
  show ((correlate im f).vec).getD (i * (im.cols - 2) + j) 0 = _
  rw [correlate_vec im f hr hc]
  exact mkVec_getD _ _ _ i j hi hj

/-! Helper lemmas about broadcasts and the activation. -/

theorem broadcastMat_rows (m : Dense) (n : ℚ) (f : ℚ → ℚ → ℚ) :
    (broadcastMat m n f).rows = m.rows := rfl

theorem broadcastMat_cols (m : Dense) (n : ℚ) (f : ℚ → ℚ → ℚ) :
    (broadcastMat m n f).cols = m.cols := rfl

theorem broadcastMat_length (m : Dense) (n : ℚ) (f : ℚ → ℚ → ℚ) :
    (broadcastMat m n f).vec.length = m.rows * m.cols :=
  mkVec_length _ _ _

theorem broadcastMat_atD (m : Dense) (n : ℚ) (f : ℚ → ℚ → ℚ) {y x : Nat} (hy : y < m.rows)
    (hx : x < m.cols) :
    (broadcastMat m n f).atD y x = f (m.atD y x) n := by
  show ((broadcastMat m n f).vec).getD (y * m.cols + x) 0 = _
  exact mkVec_getD _ _ _ y x hy hx

theorem leakyRelu_rows (v : Dense) : (leakyRelu v).rows = v.rows := rfl

theorem leakyRelu_cols (v : Dense) : (leakyRelu v).cols = v.cols := rfl

theorem leakyRelu_atD (v : Dense) {y x : Nat} (hy : y < v.rows) (hx : x < v.cols) :
    (leakyRelu v).atD y x = maximum (v.atD y x) 0 + mul (minimum (v.atD y x) 0) (0.1 : ℚ) := by
  have hidx : y * v.cols + x < v.rows * v.cols := index_lt hy hx
  show (List.zipWith (· + ·) (broadcastMat v 0 maximum).vec
      (broadcastMat (broadcastMat v 0 minimum) (0.1 : ℚ) mul).vec).getD (y * v.cols + x) 0 = _
  rw [getD_zipWith_add (by rw [broadcastMat_length]; exact hidx)
    (by rw [broadcastMat_length, broadcastMat_rows, broadcastMat_cols]; exact hidx)]
  have h1 : ((broadcastMat v 0 maximum).vec).getD (y * v.cols + x) 0 =
      maximum (v.atD y x) 0 := broadcastMat_atD v 0 maximum hy hx
  have h2 : ((broadcastMat (broadcastMat v 0 minimum) (0.1 : ℚ) mul).vec).getD
      (y * v.cols + x) 0 = mul (minimum (v.atD y x) 0) (0.1 : ℚ) := by
    have := broadcastMat_atD (broadcastMat v 0 minimum) (0.1 : ℚ) mul
      (y := y) (x := x) (by rw [broadcastMat_rows]; exact hy)
      (by rw [broadcastMat_cols]; exact hx)
    rw [show (broadcastMat (broadcastMat v 0 minimum) (0.1 : ℚ) mul).atD y x =
        ((broadcastMat (broadcastMat v 0 minimum) (0.1 : ℚ) mul).vec).getD
          (y * v.cols + x) 0 from rfl] at this
    rw [this, broadcastMat_atD v 0 minimum hy hx]
  rw [h1, h2]

theorem maximum_eq_max (a b : ℚ) : maximum a b = max a b := by
  rw [maximum, max_def]
  split_ifs <;> linarith

theorem minimum_eq_min (a b : ℚ) : minimum a b = min a b := by
  rw [minimum, min_def]

/-! Helper lemmas about the layer loop. -/

theorem getD_mem {α : Type} {l : List α} {j : Nat} {d : α} (h : j < l.length) :
    l.getD j d ∈ l := by
  rw [List.getD_eq_getElem _ _ h]
  exact List.getElem_mem h

theorem mem_convResults {planes : List Dense} {wgt : List (List (List ℚ))} {q : Dense}
    (h : q ∈ convResults planes wgt) :
    ∃ j, j < min planes.length wgt.length ∧
      q = correlate (planes.getD j ⟨0, 0, []⟩) (wgt.getD j []) := by
  unfold convResults at h
  rw [List.mem_map] at h
  obtain ⟨j, hj, hq⟩ := h
  exact ⟨j, List.mem_range.mp hj, hq.symm⟩

theorem convResults_length (planes : List Dense) (wgt : List (List (List ℚ))) :
    (convResults planes wgt).length = min planes.length wgt.length := by
  simp [convResults]

theorem collectOpt_length {α β : Type} (f : α → Option β) :
    ∀ (l : List α) (out : List β), collectOpt f l = some out → out.length = l.length := by
  intro l
  induction l with
  | nil =>
    intro out h
    simp only [collectOpt, Option.some.injEq] at h
    rw [← h]
    rfl
  | cons a as ih =>
    intro out h
    simp only [collectOpt] at h
    rcases hfa : f a with _ | b <;> rcases hrec : collectOpt f as with _ | bs <;>
      rw [hfa, hrec] at h <;> simp at h
    rw [← h]
    simp [ih bs hrec]

theorem collectOpt_mem {α β : Type} (f : α → Option β) :
    ∀ (l : List α) (out : List β), collectOpt f l = some out →
      ∀ q ∈ out, ∃ x ∈ l, f x = some q := by
  intro l
  induction l with
  | nil =>
    intro out h q hq
    simp only [collectOpt, Option.some.injEq] at h
    rw [← h] at hq
    cases hq
  | cons a as ih =>
    intro out h q hq
    simp only [collectOpt] at h
    rcases hfa : f a with _ | b <;> rcases hrec : collectOpt f as with _ | bs <;>
      rw [hfa, hrec] at h <;> simp at h
    rw [← h] at hq
    rcases List.mem_cons.mp hq with h' | h'
    · exact ⟨a, List.mem_cons_self a as, by rw [hfa, h']⟩
    · obtain ⟨x, hx, hfx⟩ := ih bs hrec q h'
      exact ⟨x, List.mem_cons_of_mem a hx, hfx⟩

theorem execOutputPlane_dims {planes : List Dense} {b : ℚ} {wgt : List (List (List ℚ))}
    {q : Dense} {a bb : Nat} (h : execOutputPlane planes b wgt = some q)
    (hp : ∀ p ∈ planes, p.rows = a ∧ p.cols = bb) :
    q.rows = a - 2 ∧ q.cols = bb - 2 := by
  unfold execOutputPlane execOutputPlaneArr at h
  rcases hconv : convResults planes wgt with _ | ⟨hd, t⟩
  · rw [hconv] at h
    simp [reducePartials] at h
  · rw [hconv] at h
    simp only [reducePartials] at h
    have h : broadcastMat (List.foldl matAdd hd t) b add = q := Option.some.inj h
    have hhd : hd ∈ convResults planes wgt := by
      rw [hconv]
      exact List.mem_cons_self hd t
    obtain ⟨j, hj, hq⟩ := mem_convResults hhd
    have hmem : planes.getD j ⟨0, 0, []⟩ ∈ planes := getD_mem (by omega)
    obtain ⟨h1, h2⟩ := hp _ hmem
    have hrows : hd.rows = a - 2 := by
      rw [hq, correlate_rows, h1]
    have hcols : hd.cols = bb - 2 := by
      rw [hq, correlate_cols, h2]
    obtain ⟨hf1, hf2⟩ := foldl_matAdd_dims t hd
    rw [← h]
    constructor
    · rw [broadcastMat_rows, hf1, hrows]
    · rw [broadcastMat_cols, hf2, hcols]

theorem execLayer_some_oPlanes {planes : List Dense} {m : Model} {out : List Dense}
    (h : execLayer planes m = some out) :
    ∃ oP, collectOpt
        (fun i => execOutputPlane planes (m.Bias.getD i 0) (m.Weight.getD i []))
        (List.range (min m.Bias.length m.Weight.length)) = some oP ∧
      out = oP.map leakyRelu := by
  unfold execLayer at h
  rcases hc : collectOpt
      (fun i => execOutputPlane planes (m.Bias.getD i 0) (m.Weight.getD i []))
      (List.range (min m.Bias.length m.Weight.length)) with _ | oP
  · rw [hc] at h
    simp at h
  · rw [hc] at h
    exact ⟨oP, rfl, (Option.some.inj h).symm⟩

theorem execLayer_length {planes : List Dense} {m : Model} {out : List Dense}
    (h : execLayer planes m = some out) :
    out.length = min m.Bias.length m.Weight.length := by
  obtain ⟨oP, hc, hout⟩ := execLayer_some_oPlanes h
  rw [hout, List.length_map, collectOpt_length _ _ _ hc]
  simp

theorem execLayer_dims {planes : List Dense} {m : Model} {out : List Dense} {a bb : Nat}
    (h : execLayer planes m = some out) (hp : ∀ p ∈ planes, p.rows = a ∧ p.cols = bb) :
    ∀ q ∈ out, q.rows = a - 2 ∧ q.cols = bb - 2 := by
  intro q hq
  obtain ⟨oP, hc, hout⟩ := execLayer_some_oPlanes h
  rw [hout] at hq
  rw [List.mem_map] at hq
  obtain ⟨o, ho, hqo⟩ := hq
  obtain ⟨i, _, hoi⟩ := collectOpt_mem _ _ _ hc o ho
  obtain ⟨d1, d2⟩ := execOutputPlane_dims hoi hp
  rw [← hqo]
  exact ⟨by rw [leakyRelu_rows, d1], by rw [leakyRelu_cols, d2]⟩

theorem execNetwork_dims :
    ∀ (models : List Model) (planes out : List Dense) (h w : Nat),
      (∀ p ∈ planes, p.rows = h + 2 * models.length ∧ p.cols = w + 2 * models.length) →
      execNetwork models planes = some out →
      ∀ q ∈ out, q.rows = h ∧ q.cols = w := by
  intro models
  induction models with
  | nil =>
    intro planes out h w hp hx q hq
    simp only [execNetwork, Option.some.injEq] at hx
    rw [← hx] at hq
    simpa using hp q hq
  | cons m ms ih =>
    intro planes out h w hp hx q hq
    simp only [execNetwork] at hx
    rcases hl : execLayer planes m with _ | next
    · rw [hl] at hx
      simp at hx
    · rw [hl] at hx
      have hd := execLayer_dims hl hp
      have heq : h + 2 * (m :: ms).length - 2 = h + 2 * ms.length := by
        simp [List.length_cons]
        omega
      have heq2 : w + 2 * (m :: ms).length - 2 = w + 2 * ms.length := by
        simp [List.length_cons]
        omega
      have hnext : ∀ p ∈ next, p.rows = h + 2 * ms.length ∧ p.cols = w + 2 * ms.length := by
        intro p hpn
        obtain ⟨e1, e2⟩ := hd p hpn
        rw [heq] at e1
        rw [heq2] at e2
        exact ⟨e1, e2⟩
      exact ih next out h w hnext hx q hq

/-! Claim theorems. -/

/-- Claim C1: for every Network of length L and every H by W input, the engine
pads the input by radius L (dimensions grow by 2L in each direction), each
layer shrinks every plane by exactly 2 in each dimension, and whenever the
layer loop completes, every resulting plane has dimensions exactly H by W. -/
theorem C1_shape_invariant :
    ∀ (models : List Model) (m : Dense) (out : List Dense),
      ((pad m models.length).rows = m.rows + 2 * models.length ∧
        (pad m models.length).cols = m.cols + 2 * models.length) ∧
      (∀ (planes : List Dense) (layer : Model) (out2 : List Dense) (a b : Nat),
        (∀ p ∈ planes, p.rows = a ∧ p.cols = b) → execLayer planes layer = some out2 →
        ∀ q ∈ out2, q.rows = a - 2 ∧ q.cols = b - 2) ∧
      (execNetwork models [pad m models.length] = some out →
        ∀ p ∈ out, p.rows = m.rows ∧ p.cols = m.cols) := by
  intro models m out
  refine ⟨⟨?_, ?_⟩, fun planes layer out2 a b hp hl => execLayer_dims hl hp, ?_⟩
  · show m.rows + models.length * 2 = m.rows + 2 * models.length
    omega
  · show m.cols + models.length * 2 = m.cols + 2 * models.length
    omega
  · intro hx
    apply execNetwork_dims models [pad m models.length] out m.rows m.cols ?_ hx
    intro p hp
    rw [List.mem_singleton] at hp
    subst hp
    constructor
    · show m.rows + models.length * 2 = m.rows + 2 * models.length
      omega
    · show m.cols + models.length * 2 = m.cols + 2 * models.length
      omega

/-- Witness for C1 at a concrete one-layer network and 1 by 1 input. -/
theorem C1_shape_invariant_witness :
    (Dense.mk 1 1 [(0 : ℚ)]).rows = 1 ∧ (Dense.mk 1 1 [(0 : ℚ)]).cols = 1 :=
  (C1_shape_invariant [model1] zeros1 [Dense.mk 1 1 [0]]).2.2
    (by
      have hr1 : List.range 1 = [0] := rfl
      have hr2 : List.range 2 = [0, 1] := rfl
      have hr3 : List.range 3 = [0, 1, 2] := rfl
      simp [execNetwork, execLayer, collectOpt, execOutputPlane, execOutputPlaneArr,
        convResults, reducePartials, correlate, calcConv, Dense.atD, kAt,
        broadcastMat, mkVec, matAdd, leakyRelu, maximum, minimum, mul, add,
        pad, zeros1, model1, idKernel, hr1, hr2, hr3])
    (Dense.mk 1 1 [0]) (List.mem_singleton.mpr rfl)

/-- Claim C4: a layer produces exactly min(len Bias, len Weight) output planes
and consumes exactly min(len planes, len wgt) input planes per output plane; a
layer with 2 biases and 3 weight groups yields exactly 2 planes, no error. -/
theorem C4_truncation_policy :
    (∀ (planes : List Dense) (m : Model) (out : List Dense),
      execLayer planes m = some out → out.length = min m.Bias.length m.Weight.length) ∧
    (∀ (planes : List Dense) (wgt : List (List (List ℚ))),
      (convResults planes wgt).length = min planes.length wgt.length) ∧
    execLayer [zeros3] model23 = some [Dense.mk 1 1 [0], Dense.mk 1 1 [0]] :=
  ⟨fun _ _ _ h => execLayer_length h, convResults_length, by
    have hr1 : List.range 1 = [0] := rfl
    have hr2 : List.range 2 = [0, 1] := rfl
    have hr3 : List.range 3 = [0, 1, 2] := rfl
    simp [execLayer, collectOpt, execOutputPlane, execOutputPlaneArr,
      convResults, reducePartials, correlate, calcConv, Dense.atD, kAt,
      broadcastMat, mkVec, matAdd, leakyRelu, maximum, minimum, mul, add,
      zeros3, model23, idKernel, hr1, hr2, hr3]⟩

/-- Witness for C4 at the concrete 2-bias, 3-weight-group layer. -/
theorem C4_truncation_policy_witness :
    ([Dense.mk 1 1 [(0 : ℚ)], Dense.mk 1 1 [0]] : List Dense).length =
      min model23.Bias.length model23.Weight.length :=
  C4_truncation_policy.1 [zeros3] model23 _ C4_truncation_policy.2.2

/-- Counterexample for C2: at a concrete asymmetric input and kernel, the
correlate of the source disagrees with the standard valid cross-correlation
the claim describes; the code pairs the kernel with the transposed offsets
and yields 7 where the claimed operation yields 5. -/
theorem C2_correlate_counterexample :
    correlate imAsym kAsym ≠ correlateSpec imAsym kAsym ∧
      (correlate imAsym kAsym).vec = [7] ∧ (correlateSpec imAsym kAsym).vec = [5] := by
  have hr1 : List.range 1 = [0] := rfl
  have hr3 : List.range 3 = [0, 1, 2] := rfl
  have h1 : (correlate imAsym kAsym).vec = [7] := by
    simp [correlate, calcConv, Dense.atD, kAt, imAsym, kAsym, hr1, hr3]
  have h2 : (correlateSpec imAsym kAsym).vec = [5] := by
    simp [correlateSpec, mkVec, Dense.atD, kAt, imAsym, kAsym, hr1]
  refine ⟨?_, h1, h2⟩
  intro h
  rw [h, h2] at h1
  norm_num at h1

/-- Claim C2 as amended: for inputs of at least 3 rows and columns and a 3 by
3 kernel, correlate returns dimensions (rows - 2, cols - 2) and each output
cell (i, j) is the sum over the neighbourhood centred at input cell
(i + 1, j + 1) of the input element at offset (b, a) from the corner times
the kernel element at (a, b), that is, valid cross-correlation with the
transposed kernel. -/
theorem C2_correlate_amended :
    ∀ (im : Dense) (f : List (List ℚ)), 3 ≤ im.rows → 3 ≤ im.cols →
      (correlate im f).rows = im.rows - 2 ∧ (correlate im f).cols = im.cols - 2 ∧
      (correlate im f).vec.length = (im.rows - 2) * (im.cols - 2) ∧
      ∀ i j, i < im.rows - 2 → j < im.cols - 2 →
        (correlate im f).atD i j =
          im.atD i j * kAt f 0 0 + im.atD (i + 1) j * kAt f 0 1 +
          im.atD (i + 2) j * kAt f 0 2 +
          im.atD i (j + 1) * kAt f 1 0 + im.atD (i + 1) (j + 1) * kAt f 1 1 +
          im.atD (i + 2) (j + 1) * kAt f 1 2 +
          im.atD i (j + 2) * kAt f 2 0 + im.atD (i + 1) (j + 2) * kAt f 2 1 +
          im.atD (i + 2) (j + 2) * kAt f 2 2 := by
  intro im f hr hc
  refine ⟨rfl, rfl, correlate_length im f (by omega) (by omega), ?_⟩
  intro i j hi hj
  rw [correlate_atD im f (by omega) (by omega) hi hj]
  rfl

/-- Witness for C2 at the concrete counterexample input. -/
theorem C2_correlate_amended_witness :
    (correlate imAsym kAsym).vec.length = (imAsym.rows - 2) * (imAsym.cols - 2) :=
  (C2_correlate_amended imAsym kAsym (by decide) (by decide)).2.2.1

/-- Claim C3: evaluation of pad at the all-distinct 3 by 3 input with radius
1.  The four corner cells do replicate the source corners, but the top edge
cell (0, 1) holds 5 / 255, the centre of the source, which differs from the
nearest source edge value (1 / 255, or 2 / 255 under the unshifted reading),
so the claimed edge replication does not hold: the code fills the top and
bottom padding rows from the wrong source row and without the column
offset. -/
theorem C3_pad_bug :
    (pad distinct3 1).atD 0 0 = 1 / 255 ∧ (pad distinct3 1).atD 0 4 = 3 / 255 ∧
    (pad distinct3 1).atD 4 0 = 7 / 255 ∧ (pad distinct3 1).atD 4 4 = 9 / 255 ∧
    (pad distinct3 1).atD 0 1 = 5 / 255 ∧ (pad distinct3 1).atD 4 1 = 8 / 255 ∧
    (pad distinct3 1).atD 0 1 ≠ 1 / 255 ∧ (pad distinct3 1).atD 0 1 ≠ 2 / 255 := by
  have hr1 : List.range 1 = [0] := rfl
  have hr2 : List.range 2 = [0, 1] := rfl
  have hr5 : List.range 5 = [0, 1, 2, 3, 4] := rfl
  refine ⟨?_, ?_, ?_, ?_, ?_, ?_, ?_, ?_⟩ <;>
    simp [pad, Dense.atD, distinct3, hr1, hr2, hr5] <;> norm_num

/-- Claim C5: the activation the engine applies to every output plane cell is
the leaky rectifier max(x, 0) + 0.1 min(x, 0), and at the scalar inputs -1,
0 and 2 it yields -0.1, 0 and 2. -/
theorem C5_activation :
    (∀ (v : Dense) (y x : Nat), y < v.rows → x < v.cols →
      (leakyRelu v).atD y x = activatedSpec (v.atD y x)) ∧
    activatedSpec (-1) = -0.1 ∧ activatedSpec 0 = 0 ∧ activatedSpec 2 = 2 ∧
    leakyRelu (Dense.mk 1 1 [-1]) = Dense.mk 1 1 [-0.1] ∧
    leakyRelu (Dense.mk 1 1 [0]) = Dense.mk 1 1 [0] ∧
    leakyRelu (Dense.mk 1 1 [2]) = Dense.mk 1 1 [2] := by
  have hr1 : List.range 1 = [0] := rfl
  refine ⟨?_, by norm_num [activatedSpec, max_def, min_def],
      by norm_num [activatedSpec, max_def, min_def],
      by norm_num [activatedSpec, max_def, min_def], ?_, ?_, ?_⟩
  · intro v y x hy hx
    rw [leakyRelu_atD v hy hx, activatedSpec, maximum_eq_max, minimum_eq_min, mul]
    ring
  all_goals
    simp [leakyRelu, broadcastMat, mkVec, Dense.atD, matAdd, maximum, minimum, mul, hr1]

/-- Witness for C5 at a concrete 1 by 1 plane. -/
theorem C5_activation_witness :
    (leakyRelu (Dense.mk 1 1 [(7 : ℚ)])).atD 0 0 =
      activatedSpec ((Dense.mk 1 1 [(7 : ℚ)]).atD 0 0) :=
  C5_activation.1 (Dense.mk 1 1 [7]) 0 0 (by decide) (by decide)

/-- Claim C6: after all layers, a plane count other than exactly one makes
the run abort with no output, and a count of exactly one never aborts; the
whole pipeline result is exactly the finalize step applied to the planes the
layer loop produced. -/
theorem C6_assert_single_plane :
    (∀ planes : List Dense, planes.length ≠ 1 → finalize planes = none) ∧
    (∀ planes : List Dense, planes.length = 1 →
      finalize planes =
        some (broadcastVec (clip (planes.getD 0 ⟨0, 0, []⟩) 0 1) 255 mul)) ∧
    (∀ (models : List Model) (m : Dense) (ps : List Dense),
      execNetwork models [pad m models.length] = some ps →
      ExecCore models m = finalize ps) := by
  refine ⟨?_, ?_, ?_⟩
  · intro planes h
    simp [finalize, h]
  · intro planes h
    simp [finalize, h]
  · intro models m ps h
    unfold ExecCore
    rw [h]

/-- Witness for C6 at the empty plane set. -/
theorem C6_assert_single_plane_witness : finalize [] = none :=
  C6_assert_single_plane.1 [] (by decide)

/-- Helper: the cell the clip method writes at position (y, x). -/
theorem clip_getD (p : Dense) (s t : ℚ) {y x : Nat} (hy : y < p.rows) (hx : x < p.cols) :
    (clip p s t).getD (y * p.cols + x) 0 = clipScalar s t (p.atD y x) :=
  mkVec_getD _ _ _ y x hy hx

/-- Helper: every clamp into the unit interval lands in the unit interval. -/
theorem clipScalar_bounds (e : ℚ) : 0 ≤ clipScalar 0 1 e ∧ clipScalar 0 1 e ≤ 1 := by
  unfold clipScalar
  split_ifs <;> constructor <;> linarith

/-- Claim C7: the final vector is the sole plane clipped to the unit interval
and rescaled by 255, so every element lies in the range 0 to 255 and the
element at (y, x) is 255 times the clamp of the pre-clip value there. -/
theorem C7_clip_rescale :
    ∀ (p : Dense) (v : List ℚ), finalize [p] = some v →
      (∀ q ∈ v, 0 ≤ q ∧ q ≤ 255) ∧
      (∀ y x, y < p.rows → x < p.cols →
        v.getD (y * p.cols + x) 0 = 255 * clipScalar 0 1 (p.atD y x)) := by
  intro p v h
  have hv : broadcastVec (clip p 0 1) 255 mul = v := Option.some.inj h
  constructor
  · intro q hq
    rw [← hv] at hq
    unfold broadcastVec at hq
    rw [List.mem_map] at hq
    obtain ⟨e, he, hqe⟩ := hq
    obtain ⟨y, x, hy, hx, hexy⟩ := mem_mkVec he
    obtain ⟨b1, b2⟩ := clipScalar_bounds (p.atD y x)
    rw [← hexy] at b1 b2
    rw [← hqe]
    unfold mul
    constructor
    · positivity
    · calc e * 255 ≤ 1 * 255 := by nlinarith
        _ = 255 := by norm_num
  · intro y x hy hx
    have hidx : y * p.cols + x < (clip p 0 1).length := by
      unfold clip
      rw [mkVec_length]
      exact index_lt hy hx
    rw [← hv]
    unfold broadcastVec
    rw [List.getD_eq_getElem _ _ (by simpa using hidx), List.getElem_map,
      ← List.getD_eq_getElem _ 0, clip_getD p 0 1 hy hx]
    unfold mul
    ring

/-- Witness for C7 at a concrete 1 by 1 plane holding the value 2. -/
theorem C7_clip_rescale_witness :
    ([(255 : ℚ)] : List ℚ).getD (0 * (Dense.mk 1 1 [(2 : ℚ)]).cols + 0) 0 =
      255 * clipScalar 0 1 ((Dense.mk 1 1 [(2 : ℚ)]).atD 0 0) :=
  (C7_clip_rescale (Dense.mk 1 1 [2]) [255]
    (by
      have hr1 : List.range 1 = [0] := rfl
      simp [finalize, broadcastVec, clip, clipScalar, mkVec, Dense.atD, mul, hr1])).2
    0 0 (by decide) (by decide)

/-- Claim C8: for a fixed plane set and weight group, the reduction of the
per-input-plane convolution results is independent of the arrival order (any
two permutations of the launch-order results reduce to the same output
plane), so the numeric result never depends on the degree of parallelism,
which only influences the order in which results arrive. -/
theorem C8_reduction_order_independent :
    ∀ (planes : List Dense) (wgt : List (List (List ℚ))) (b : ℚ) (r c : Nat)
      (l₁ l₂ : List Dense),
      (∀ q ∈ convResults planes wgt, q.rows = r ∧ q.cols = c) →
      l₁.Perm (convResults planes wgt) → l₂.Perm (convResults planes wgt) →
      execOutputPlaneArr l₁ b = execOutputPlaneArr l₂ b ∧
        execOutputPlane planes b wgt = execOutputPlaneArr l₁ b := by
  intro planes wgt b r c l₁ l₂ hs h1 h2
  have key : ∀ l : List Dense, l.Perm (convResults planes wgt) →
      reducePartials l = reducePartials (convResults planes wgt) :=
    fun l hl => reducePartials_perm hs hl
  constructor
  · unfold execOutputPlaneArr
    rw [key l₁ h1, key l₂ h2]
  · unfold execOutputPlane execOutputPlaneArr
    rw [key l₁ h1]

/-- Witness for C8: at a concrete pair of planes and kernels, the reduction
over the launch order equals the reduction over the reversed arrival order. -/
theorem C8_reduction_order_independent_witness :
    execOutputPlaneArr (convResults planesPair wgtPair) 0 =
      execOutputPlaneArr (convResults planesPair wgtPair).reverse 0 :=
  (C8_reduction_order_independent planesPair wgtPair 0 1 1
    (convResults planesPair wgtPair) (convResults planesPair wgtPair).reverse
    (by
      intro q hq
      obtain ⟨j, hj, hqe⟩ := mem_convResults hq
      have hj2 : j = 0 ∨ j = 1 := by
        simp [planesPair, wgtPair] at hj
        omega
      subst hqe
      rcases hj2 with rfl | rfl
      · exact ⟨rfl, rfl⟩
      · exact ⟨rfl, rfl⟩)
    (List.Perm.refl _) (List.reverse_perm _)).1

/-- Claim C9: merging the reconstructed luminance into the color raster
replaces only the luminance component; the chroma components of every pixel
are exactly those of the source raster. -/
theorem C9_chroma_passthrough :
    ∀ (c : List YCbCr) (vec : List ℚ) (i : Nat), i < c.length →
      ((replaceLuma c vec).getD i ⟨0, 0, 0⟩).Cb = (c.getD i ⟨0, 0, 0⟩).Cb ∧
      ((replaceLuma c vec).getD i ⟨0, 0, 0⟩).Cr = (c.getD i ⟨0, 0, 0⟩).Cr ∧
      (replaceLuma c vec).length = c.length := by
  intro c vec i hi
  have hlen : (replaceLuma c vec).length = c.length := by simp [replaceLuma]
  have hget : (replaceLuma c vec).getD i ⟨0, 0, 0⟩ =
      (if i < vec.length
        then { c.getD i ⟨0, 0, 0⟩ with Y := goUint8 (vec.getD i 0) }
        else c.getD i ⟨0, 0, 0⟩) := by
    unfold replaceLuma
    exact getD_map_range' hi
  rw [hget]
  split_ifs with h
  · exact ⟨rfl, rfl, hlen⟩
  · exact ⟨rfl, rfl, hlen⟩

/-- Witness for C9 at a concrete one-pixel raster. -/
theorem C9_chroma_passthrough_witness :
    ((replaceLuma [⟨10, 20, 30⟩] [(2 : ℚ)]).getD 0 ⟨0, 0, 0⟩).Cb =
      (([⟨10, 20, 30⟩] : List YCbCr).getD 0 ⟨0, 0, 0⟩).Cb :=
  (C9_chroma_passthrough [⟨10, 20, 30⟩] [2] 0 (by decide)).1

/-- Claim C10: for every output name whose extension is none of png, jpeg and
jpg, SaveImage creates or truncates the target file, writes no image data
into it, and returns the nil error. -/
theorem C10_saveimage_unknown_ext :
    ∀ name : String, goExt name ≠ ".png" → goExt name ≠ ".jpeg" → goExt name ≠ ".jpg" →
      SaveImage true name = ⟨true, none, false⟩ := by
  intro name h1 h2 h3
  simp [SaveImage, h1, h2, h3]

/-- Witness for C10 at a gif file name. -/
theorem C10_saveimage_unknown_ext_witness :
    SaveImage true "miku.gif" = ⟨true, none, false⟩ :=
  C10_saveimage_unknown_ext "miku.gif" (by decide) (by decide) (by decide)

end Waifu2x
